import Mathlib

/-!
# imageserver: the `Server` capability and its decorators (`server.go`)

A shallow embedding of `server.go`:

* `Server` (the interface), `ServerFunc`, `StaticServer`, `SourceServer`,
  `NewLimitServer` / `limitServer`;
* calls are given by explicit state passing: a `Get` takes the state of the
  world it may touch and gives back how the call ended together with the new
  state;
* the buffered channel used by `limitServer` as an admission gate is a counter
  with a capacity; the interleavings of concurrent callers are a labelled
  transition system over the program points of `limitServer.Get`.
-/

namespace imageserver

/-! ## Data model -/

/-- Modelled from the spec: the parameter map `Params`, declared outside `server.go`.
Keys are strings, keys are unique, insertion order is irrelevant; `server.go`
builds one with the map literal `Params{SourceParam: source}`. -/
abbrev Params (V : Type) := Finmap (fun _ : String => V)

/-- Modelled from the spec: the values of Go's `error` interface that matter here.
`notFound key` is the "key not found" error of the parameter lookup; `other e`
is any other error value. A nil `error` is `none : Option (Error E)`. -/
inductive Error (E : Type) where
  | notFound (key : String)
  | other (e : E)
  deriving DecidableEq, Repr

/-- Modelled from the spec: the fallible lookup `Params.Get`, declared outside
`server.go`: "`Get(key) -> (value, error)`, fails with a key-not-found kind
when absent"; presence of the key, not the value, decides. -/
def Params.Get {V E : Type} (params : Params V) (key : String) : Except (Error E) V :=
  match Finmap.lookup key params with
  | some v => Except.ok v
  | none => Except.error (Error.notFound key)

/-- How a call of `Get` ends. `ret image err` is a normal return of the pair
`(*Image, error)` (either component may be nil); `panic v` is abnormal
termination with panic value `v`; `hang` is a call that never returns. -/
inductive Outcome (I E P : Type) where
  | ret (image : Option I) (err : Option (Error E))
  | panic (v : P)
  | hang
  deriving DecidableEq, Repr

/-- Whether the call came to an end (returned or panicked). -/
def Outcome.ended {I E P : Type} : Outcome I E P → Bool
  | Outcome.hang => false
  | _ => true

/-- The interface `Server`: `Get(Params) (*Image, error)`. An implementation
may read and write a state `σ`; `Get params st` is the outcome of the call
started in `st` and the state it leaves (for `hang`, the state it is stuck in). -/
structure Server (σ V I E P : Type) where
  Get : Params V → σ → Outcome I E P × σ

/-! ## `ServerFunc` (lines 9-15) -/

/-- `type ServerFunc func(params Params) (*Image, error)`. -/
abbrev ServerFunc (σ V I E P : Type) := Params V → σ → Outcome I E P × σ

/-- `func (f ServerFunc) Get(params Params) (*Image, error) { return f(params) }`. -/
def ServerFunc.Get {σ V I E P : Type} (f : ServerFunc σ V I E P) (params : Params V) (st : σ) :
    Outcome I E P × σ :=
  f params st

/-- A `ServerFunc` used as a `Server`. -/
def ServerFunc.toServer {σ V I E P : Type} (f : ServerFunc σ V I E P) : Server σ V I E P :=
  ⟨ServerFunc.Get f⟩

/-! ## `StaticServer` (lines 17-26) -/

/-- `type StaticServer struct { Image *Image; Error error }`. -/
structure StaticServer (I E : Type) where
  Image : Option I
  Error : Option (Error E)
  deriving DecidableEq, Repr

/-- `func (s *StaticServer) Get(params Params) (*Image, error) { return s.Image, s.Error }`.
The receiver is a pointer: the struct is the state the call runs in. -/
def StaticServer.Get {V I E P : Type} (_params : Params V) (s : StaticServer I E) :
    Outcome I E P × StaticServer I E :=
  (Outcome.ret s.Image s.Error, s)

/-- A `*StaticServer` used as a `Server`. -/
def StaticServer.toServer {V I E P : Type} : Server (StaticServer I E) V I E P :=
  ⟨StaticServer.Get⟩

/-! ## `SourceServer` (lines 28-46) -/

/-- `const SourceParam = "source"`. -/
def SourceParam : String := "source"

/-- `type SourceServer struct { Server }`. -/
structure SourceServer (σ V I E P : Type) where
  Server : Server σ V I E P

/-- The method `SourceServer.Get`:
```
source, err := params.Get(SourceParam)
if err != nil { return nil, err }
params = Params{SourceParam: source}
return s.Server.Get(params)
```
-/
def SourceServer.Get {σ V I E P : Type} (s : SourceServer σ V I E P) (params : Params V) (st : σ) :
    Outcome I E P × σ :=
  match Params.Get params SourceParam with
  | Except.error err => (Outcome.ret none (some err), st)
  | Except.ok source => s.Server.Get (Finmap.singleton SourceParam source) st

/-- A `*SourceServer` used as a `Server`. -/
def SourceServer.toServer {σ V I E P : Type} (s : SourceServer σ V I E P) :
    imageserver.Server σ V I E P :=
  ⟨SourceServer.Get s⟩

/-- A wrapped server that records invocation: every call of `Get` appends its
parameter map to a log, then runs `w.Get`. -/
def recording {σ V I E P : Type} (w : Server σ V I E P) : Server (List (Params V) × σ) V I E P where
  Get params st := ((w.Get params st.2).1, (st.1 ++ [params], (w.Get params st.2).2))

/-- Calls of `w.Get` issued one after another, each starting in the state the
one before has left; a call that never returns ends the sequence. -/
def Server.GetEach {σ V I E P : Type} (w : Server σ V I E P) :
    List (Params V) → σ → List (Outcome I E P) × σ
  | [], st => ([], st)
  | params :: rest, st =>
    match w.Get params st with
    | (Outcome.hang, st1) => ([Outcome.hang], st1)
    | (out, st1) => (out :: (Server.GetEach w rest st1).1, (Server.GetEach w rest st1).2)

/-! ## The limit server (lines 48-69) -/

/-- A Go channel of `struct{}` made by `make(chan struct{}, cap)`: the element
carries no data, so the buffer is the number `len` of tokens queued in it. -/
structure Chan where
  cap : Nat
  len : Nat
  deriving DecidableEq, Repr

/-- `make(chan struct{}, size)`: an empty channel with `size` buffer slots; a
negative size panics (`none`). Size `0` gives an unbuffered channel. -/
def Chan.make (size : Int) : Option Chan :=
  if size < 0 then none else some { cap := size.toNat, len := 0 }

/-- A buffered send `ch <- struct{}{}` that completes by itself: possible only
while the buffer has a free slot. `none`: the sender has to wait. -/
def Chan.send (ch : Chan) : Option Chan :=
  if ch.len < ch.cap then some { ch with len := ch.len + 1 } else none

/-- A buffered receive `<-ch` that completes by itself: possible only while the
buffer holds a token. `none`: the receiver has to wait. -/
def Chan.recv (ch : Chan) : Option Chan :=
  if 0 < ch.len then some { ch with len := ch.len - 1 } else none

/-- `type limitServer struct { Server; limitCh chan struct{} }`. The field
`limitCh` is the current content of the channel. -/
structure limitServer (σ V I E P : Type) where
  Server : Server σ V I E P
  limitCh : Chan

/-- `func NewLimitServer(s Server, limit int) Server`: the struct with the
channel `make(chan struct{}, limit)`. No check on `limit` other than the one
`make` does (`none`: `make` panics). -/
def NewLimitServer {σ V I E P : Type} (s : Server σ V I E P) (limit : Int) :
    Option (limitServer σ V I E P) :=
  match Chan.make limit with
  | none => none
  | some ch => some { Server := s, limitCh := ch }

/-- The method `limitServer.Get`, run by one goroutine while no other goroutine
touches the channel:
```
s.limitCh <- struct{}{}
defer func() { <-s.limitCh }()
return s.Server.Get(params)
```
The send waits for ever when the buffer is full (`hang`, the wrapped server is
not called). When the wrapped call never returns the deferred function never
runs. Otherwise the deferred receive runs, on return and on panic alike, and
the outcome of the wrapped call is the outcome of the call. -/
def limitServer.Get {σ V I E P : Type} (s : limitServer σ V I E P) (params : Params V) (st : σ) :
    Outcome I E P × (limitServer σ V I E P × σ) :=
  match Chan.send s.limitCh with
  | none => (Outcome.hang, (s, st))
  | some ch =>
    match s.Server.Get params st with
    | (Outcome.hang, st1) => (Outcome.hang, ({ s with limitCh := ch }, st1))
    | (out, st1) =>
      match Chan.recv ch with
      | none => (Outcome.hang, ({ s with limitCh := ch }, st1))
      | some ch1 => (out, ({ s with limitCh := ch1 }, st1))

/-- Calls of `limitServer.Get` issued one after another, each starting when the
one before has ended; for each call its outcome and the number of tokens in the
channel after it. A call that never returns ends the sequence. -/
def limitServer.GetAll {σ V I E P : Type} (s : limitServer σ V I E P) (st : σ) :
    List (Params V) → List (Outcome I E P × Nat)
  | [] => []
  | params :: rest =>
    match limitServer.Get s params st with
    | (Outcome.hang, (s1, _)) => [(Outcome.hang, s1.limitCh.len)]
    | (out, (s1, st1)) => (out, s1.limitCh.len) :: limitServer.GetAll s1 st1 rest

/-! ### Concurrent callers of `limitServer.Get` -/

/-- Program points of one goroutine inside `limitServer.Get`. -/
inductive PC (V I E P : Type) where
  /-- At line 64, the send `s.limitCh <- struct{}{}` not yet done. -/
  | send
  /-- At line 68, inside `s.Server.Get(q)`: `q` is the map handed to the wrapped server. -/
  | call (q : Params V)
  /-- The wrapped call has ended with `out`; the deferred receive of line 66 not yet done. -/
  | recv (out : Outcome I E P)
  /-- The call of `Get` has ended with `out`. -/
  | done (out : Outcome I E P)

/-- A goroutine that called `Get(params)` and where it stands. -/
structure Caller (V I E P : Type) where
  params : Params V
  pc : PC V I E P

/-- Past the send and not yet past the deferred receive. -/
def Caller.holding {V I E P : Type} (c : Caller V I E P) : Bool :=
  match c.pc with
  | PC.call _ => true
  | PC.recv _ => true
  | _ => false

/-- Inside the wrapped server's `Get`. -/
def Caller.inCall {V I E P : Type} (c : Caller V I E P) : Bool :=
  match c.pc with
  | PC.call _ => true
  | _ => false

/-- Whether the wrapped server's `Get` has been invoked for this caller. -/
def Caller.invoked {V I E P : Type} (c : Caller V I E P) : Bool :=
  match c.pc with
  | PC.send => false
  | _ => true

/-- The call of `Get` has ended: the token is given back. -/
def Caller.released {V I E P : Type} (c : Caller V I E P) : Bool :=
  match c.pc with
  | PC.done _ => true
  | _ => false

/-- The shared channel of one limit server and the goroutines calling its `Get`. -/
structure Gate (V I E P : Type) where
  limitCh : Chan
  callers : List (Caller V I E P)

/-- The gate of a new limit server: the channel as made, no caller yet. -/
def Gate.init {V I E P : Type} (ch : Chan) : Gate V I E P :=
  { limitCh := ch, callers := [] }

/-- Number of callers past admission and not yet released. -/
def Gate.held {V I E P : Type} (g : Gate V I E P) : Nat :=
  g.callers.countP Caller.holding

/-- Number of calls of the wrapped server's `Get` in progress. -/
def Gate.inProgress {V I E P : Type} (g : Gate V I E P) : Nat :=
  g.callers.countP Caller.inCall

/-- Number of callers for which the wrapped server's `Get` has been invoked. -/
def Gate.invoked {V I E P : Type} (g : Gate V I E P) : Nat :=
  g.callers.countP Caller.invoked

/-- Number of callers whose call of `Get` has ended. -/
def Gate.released {V I E P : Type} (g : Gate V I E P) : Nat :=
  g.callers.countP Caller.released

/-- What can happen next at a gate. -/
inductive Event (V I E P : Type) where
  /-- A new goroutine calls `Get(params)`. -/
  | arrive (params : Params V)
  /-- Caller `i` completes its send into a free buffer slot. -/
  | enter (i : Nat)
  /-- The wrapped call of caller `i` ends with `out`. -/
  | finish (i : Nat) (out : Outcome I E P)
  /-- Caller `i` completes its deferred receive from the buffer. -/
  | release (i : Nat)
  /-- Sender `i` hands its token directly to receiver `j`, which waits on the
  empty buffer (the only way to pass a value through an unbuffered channel). -/
  | handoff (i j : Nat)

/-- One step of the gate; `none` when the event is not enabled. -/
def Gate.step {V I E P : Type} (g : Gate V I E P) : Event V I E P → Option (Gate V I E P)
  | Event.arrive params =>
    some { g with callers := g.callers ++ [Caller.mk params PC.send] }
  | Event.enter i =>
    match g.callers[i]?, Chan.send g.limitCh with
    | some (Caller.mk params PC.send), some ch =>
      some { limitCh := ch, callers := g.callers.set i (Caller.mk params (PC.call params)) }
    | _, _ => none
  | Event.finish i out =>
    match g.callers[i]?, out.ended with
    | some (Caller.mk params (PC.call _)), true =>
      some { g with callers := g.callers.set i (Caller.mk params (PC.recv out)) }
    | _, _ => none
  | Event.release i =>
    match g.callers[i]?, Chan.recv g.limitCh with
    | some (Caller.mk params (PC.recv out)), some ch =>
      some { limitCh := ch, callers := g.callers.set i (Caller.mk params (PC.done out)) }
    | _, _ => none
  | Event.handoff i j =>
    match g.callers[i]?, g.callers[j]?, g.limitCh.len with
    | some (Caller.mk params PC.send), some (Caller.mk paramsj (PC.recv out)), 0 =>
      let callers := g.callers.set i (Caller.mk params (PC.call params))
      some { g with callers := callers.set j (Caller.mk paramsj (PC.done out)) }
    | _, _, _ => none

/-- Run a sequence of events; `none` when one of them is not enabled. -/
def Gate.run {V I E P : Type} (g : Gate V I E P) : List (Event V I E P) → Option (Gate V I E P)
  | [] => some g
  | e :: es =>
    match Gate.step g e with
    | none => none
    | some g1 => Gate.run g1 es

/-! ## Concrete inputs used to exercise the theorems -/

/-- A parameter map whose "source" is nil, with two more keys. -/
def exampleParams : Params (Option String) :=
  Finmap.insert "width" (some "100") (Finmap.insert "format" (some "png")
    (Finmap.singleton "source" none))

/-- A parameter map with two keys, none of them "source". -/
def exampleParamsNoSource : Params (Option String) :=
  Finmap.insert "width" (some "100") (Finmap.singleton "Source" (some "a.png"))

/-- A server with a counter as state: it returns the counter as image and the
value of "source" (when it has one) as error, and adds one to the counter. -/
def exampleCounter : Server Nat (Option String) Nat String Nat :=
  ⟨fun params n =>
    (Outcome.ret (some n) ((Finmap.lookup "source" params).map fun v => Error.other (v.getD "nil")),
      n + 1)⟩

/-- A server whose `Get` always returns an error (and counts its calls). -/
def exampleFailing : Server Nat (Option String) Nat String Nat :=
  ⟨fun _ n => (Outcome.ret none (some (Error.other "unavailable")), n + 1)⟩

/-- A server whose `Get` always panics (and counts its calls). -/
def examplePanicking : Server Nat (Option String) Nat String Nat :=
  ⟨fun _ n => (Outcome.panic 42, n + 1)⟩

/-- Three callers at a gate of capacity two: the first two enter. -/
def exampleEvents : List (Event (Option String) Nat String Nat) :=
  [Event.arrive exampleParams, Event.arrive exampleParamsNoSource, Event.arrive exampleParams,
    Event.enter 0, Event.enter 1]

/-- The gate after `exampleEvents`: both tokens held, the third caller at the send. -/
def exampleGate : Gate (Option String) Nat String Nat :=
  { limitCh := { cap := 2, len := 2 },
    callers := [Caller.mk exampleParams (PC.call exampleParams),
      Caller.mk exampleParamsNoSource (PC.call exampleParamsNoSource),
      Caller.mk exampleParams PC.send] }

/-- Two callers at a gate of capacity zero. -/
def exampleEventsZero : List (Event (Option String) Nat String Nat) :=
  [Event.arrive exampleParams, Event.arrive exampleParamsNoSource]

/-! ## Theorems: `ServerFunc`, `StaticServer`, `SourceServer` -/

section Sequential

variable {σ V I E P : Type}

theorem Params_Get_of_lookup_some (p : Params V) (key : String) (v : V)
    (h : Finmap.lookup key p = some v) : (Params.Get p key : Except (Error E) V) = Except.ok v := by
  simp [Params.Get, h]

theorem Params_Get_of_lookup_none (p : Params V) (key : String)
    (h : Finmap.lookup key p = none) :
    (Params.Get p key : Except (Error E) V) = Except.error (Error.notFound key) := by
  simp [Params.Get, h]

theorem SourceServer_Get_of_present (w : Server σ V I E P) (p : Params V) (v : V)
    (h : Finmap.lookup "source" p = some v) (st : σ) :
    SourceServer.Get ⟨w⟩ p st = w.Get (Finmap.singleton "source" v) st := by
  have h1 : (Params.Get p SourceParam : Except (Error E) V) = Except.ok v :=
    Params_Get_of_lookup_some p SourceParam v h
  simp only [SourceServer.Get, h1]
  rfl

theorem SourceServer_Get_of_absent (w : Server σ V I E P) (p : Params V)
    (h : Finmap.lookup "source" p = none) (st : σ) :
    SourceServer.Get ⟨w⟩ p st = (Outcome.ret none (some (Error.notFound "source")), st) := by
  have h1 : (Params.Get p SourceParam : Except (Error E) V)
      = Except.error (Error.notFound SourceParam) :=
    Params_Get_of_lookup_none p SourceParam h
  simp only [SourceServer.Get, h1]
  rfl

/-- C1: when the key "source" is present in `p` with value `v` (any value, any
other keys), `SourceServer{w}.Get(p)` is exactly `w.Get` of the one-entry map
with "source" bound to `v`: same outcome, same state left behind; a wrapped
server that records invocation has recorded exactly that one map. -/
theorem SourceServer_Get_forwards_only_source (w : Server σ V I E P) (p : Params V) (v : V)
    (h : Finmap.lookup "source" p = some v) (st : σ) (log : List (Params V)) :
    SourceServer.Get ⟨w⟩ p st = w.Get (Finmap.singleton "source" v) st ∧
    SourceServer.Get ⟨recording w⟩ p (log, st) =
      ((w.Get (Finmap.singleton "source" v) st).1,
        (log ++ [Finmap.singleton "source" v], (w.Get (Finmap.singleton "source" v) st).2)) := by
  refine ⟨SourceServer_Get_of_present w p v h st, ?_⟩
  rw [SourceServer_Get_of_present (recording w) p v h (log, st)]
  rfl

/-- C1 at a concrete input: the value of "source" is nil, two other keys are present. -/
theorem SourceServer_Get_forwards_only_source_witness :
    Finmap.lookup "source" exampleParams = some none ∧
    SourceServer.Get ⟨recording exampleCounter⟩ exampleParams ([], 7) =
      (Outcome.ret (some 7) (some (Error.other "nil")), ([Finmap.singleton "source" none], 8)) :=
  ⟨by decide,
   (SourceServer_Get_forwards_only_source exampleCounter exampleParams none (by decide) 7 []).2⟩

/-- C2: when the key "source" is absent from `p`, `SourceServer{w}.Get(p)`
returns a nil image with the key-not-found error for "source", leaves the
state of the wrapped server untouched, and a wrapped server that records
invocation has recorded nothing. -/
theorem SourceServer_Get_missing_source (w : Server σ V I E P) (p : Params V)
    (h : Finmap.lookup "source" p = none) (st : σ) (log : List (Params V)) :
    SourceServer.Get ⟨w⟩ p st = (Outcome.ret none (some (Error.notFound "source")), st) ∧
    SourceServer.Get ⟨recording w⟩ p (log, st) =
      (Outcome.ret none (some (Error.notFound "source")), (log, st)) :=
  ⟨SourceServer_Get_of_absent w p h st, SourceServer_Get_of_absent (recording w) p h (log, st)⟩

/-- C2 at a concrete input: two keys, none of them "source". -/
theorem SourceServer_Get_missing_source_witness :
    Finmap.lookup "source" exampleParamsNoSource = none ∧
    SourceServer.Get ⟨recording exampleCounter⟩ exampleParamsNoSource ([], 7) =
      (Outcome.ret none (some (Error.notFound "source")), ([], 7)) :=
  ⟨by decide,
   (SourceServer_Get_missing_source exampleCounter exampleParamsNoSource (by decide) 7 []).2⟩

/-- C8: two parameter maps that agree on the key "source" (both lack it, or both
bind it to the same value) are indistinguishable through a `SourceServer`:
same outcome, same state of the wrapped server, and a wrapped server that
records invocation has recorded the same maps. -/
theorem SourceServer_Get_hides_other_keys (w : Server σ V I E P) (p q : Params V)
    (h : Finmap.lookup "source" p = Finmap.lookup "source" q) (st : σ) (log : List (Params V)) :
    SourceServer.Get ⟨w⟩ p st = SourceServer.Get ⟨w⟩ q st ∧
    SourceServer.Get ⟨recording w⟩ p (log, st) = SourceServer.Get ⟨recording w⟩ q (log, st) := by
  have key : ∀ {τ : Type} (u : Server τ V I E P) (t : τ),
      SourceServer.Get ⟨u⟩ p t = SourceServer.Get ⟨u⟩ q t := by
    intro τ u t
    cases hq : Finmap.lookup "source" q with
    | none =>
      rw [SourceServer_Get_of_absent u p (h.trans hq) t, SourceServer_Get_of_absent u q hq t]
    | some v =>
      rw [SourceServer_Get_of_present u p v (h.trans hq) t, SourceServer_Get_of_present u q v hq t]
  exact ⟨key w st, key (recording w) (log, st)⟩

/-- C8 at a concrete input: the map with three keys and its narrowed form. -/
theorem SourceServer_Get_hides_other_keys_witness :
    Finmap.lookup "source" exampleParams
      = Finmap.lookup "source" (Finmap.singleton "source" none : Params (Option String)) ∧
    SourceServer.Get ⟨recording exampleCounter⟩ exampleParams ([], 7) =
      SourceServer.Get ⟨recording exampleCounter⟩ (Finmap.singleton "source" none) ([], 7) :=
  ⟨by decide,
   (SourceServer_Get_hides_other_keys exampleCounter exampleParams
      (Finmap.singleton "source" none) (by decide) 7 []).2⟩

/-- C9: narrowing twice is narrowing once: for every wrapped server `w` and every
parameter map `p`, `SourceServer{SourceServer{w}}.Get(p)` has the outcome and
the effect on `w` of `SourceServer{w}.Get(p)`, and a `w` that records
invocation has recorded the same maps (none when "source" is absent). -/
theorem SourceServer_Get_nested (w : Server σ V I E P) (p : Params V) (st : σ)
    (log : List (Params V)) :
    SourceServer.Get ⟨SourceServer.toServer ⟨w⟩⟩ p st = SourceServer.Get ⟨w⟩ p st ∧
    SourceServer.Get ⟨SourceServer.toServer ⟨recording w⟩⟩ p (log, st) =
      SourceServer.Get ⟨recording w⟩ p (log, st) := by
  have key : ∀ {τ : Type} (u : Server τ V I E P) (t : τ),
      SourceServer.Get ⟨SourceServer.toServer ⟨u⟩⟩ p t = SourceServer.Get ⟨u⟩ p t := by
    intro τ u t
    cases hp : Finmap.lookup "source" p with
    | none =>
      rw [SourceServer_Get_of_absent _ p hp t, SourceServer_Get_of_absent u p hp t]
    | some v =>
      rw [SourceServer_Get_of_present _ p v hp t, SourceServer_Get_of_present u p v hp t]
      exact SourceServer_Get_of_present u (Finmap.singleton "source" v) v
        (Finmap.lookup_singleton_eq) t
  exact ⟨key w st, key (recording w) (log, st)⟩

/-- C6: a `StaticServer` holding the pair `(image, err)` returns exactly that
pair for every parameter map and leaves the stored pair as it was; so calls
with any two maps give the same result, a call after a call gives the same
result again, and any sequence of calls gives that pair every time. -/
theorem StaticServer_Get_returns_stored_pair (image : Option I) (err : Option (Error E))
    (p q : Params V) (ps : List (Params V)) :
    (StaticServer.Get p ⟨image, err⟩ : Outcome I E P × StaticServer I E)
      = (Outcome.ret image err, ⟨image, err⟩) ∧
    (StaticServer.Get q ⟨image, err⟩ : Outcome I E P × StaticServer I E)
      = StaticServer.Get p ⟨image, err⟩ ∧
    (StaticServer.Get q (StaticServer.Get p ⟨image, err⟩ : Outcome I E P × StaticServer I E).2
        : Outcome I E P × StaticServer I E)
      = StaticServer.Get p ⟨image, err⟩ ∧
    Server.GetEach (StaticServer.toServer : Server (StaticServer I E) V I E P) ps ⟨image, err⟩
      = (List.replicate ps.length (Outcome.ret image err), ⟨image, err⟩) := by
  refine ⟨rfl, rfl, rfl, ?_⟩
  induction ps with
  | nil => rfl
  | cons a rest ih =>
    simp only [Server.GetEach, StaticServer.toServer, StaticServer.Get, List.length_cons,
      List.replicate_succ]
    simp only [StaticServer.toServer, StaticServer.Get] at ih
    rw [ih]

/-- C7: for every function `f` and every parameter map `p`, `ServerFunc(f).Get(p)`
is `f(p)`: same outcome, same state left behind; an `f` that records
invocation has recorded `p` itself, once. -/
theorem ServerFunc_Get_is_the_function (f : ServerFunc σ V I E P) (p : Params V) (st : σ)
    (log : List (Params V)) :
    ServerFunc.Get f p st = f p st ∧
    ServerFunc.Get (recording ⟨f⟩).Get p (log, st) = ((f p st).1, (log ++ [p], (f p st).2)) :=
  ⟨rfl, rfl⟩

end Sequential

/-! ## Theorems: the gate of the limit server -/

section GateInvariant

variable {V I E P : Type}

theorem countP_set_of_getElem_some {α : Type} (f : α → Bool) (l : List α) (i : Nat) (c a : α)
    (h : l[i]? = some c) :
    (l.set i a).countP f + (if f c then 1 else 0) = l.countP f + (if f a then 1 else 0) := by
  induction l generalizing i with
  | nil => simp at h
  | cons x l ih =>
    cases i with
    | zero =>
      simp only [List.getElem?_cons_zero, Option.some.injEq] at h
      subst h
      simp only [List.set_cons_zero, List.countP_cons]
      omega
    | succ i =>
      simp only [List.getElem?_cons_succ] at h
      have := ih i h
      simp only [List.set_cons_succ, List.countP_cons]
      omega

theorem Chan_send_some (ch ch1 : Chan) (h : Chan.send ch = some ch1) :
    ch.len < ch.cap ∧ ch1.cap = ch.cap ∧ ch1.len = ch.len + 1 := by
  unfold Chan.send at h
  split at h
  · cases h; simp_all
  · cases h

theorem Chan_recv_some (ch ch1 : Chan) (h : Chan.recv ch = some ch1) :
    0 < ch.len ∧ ch1.cap = ch.cap ∧ ch1.len + 1 = ch.len := by
  unfold Chan.recv at h
  split at h
  · cases h
    refine ⟨by assumption, rfl, ?_⟩
    simp only
    omega
  · cases h

/-- The counters of a gate after one step, event by event. -/
theorem Gate_step_counts (g g1 : Gate V I E P) (e : Event V I E P)
    (h : Gate.step g e = some g1) (hinv : g.limitCh.len = g.held) :
    g1.limitCh.cap = g.limitCh.cap ∧ g1.limitCh.len = g1.held ∧
    (g.limitCh.len ≤ g.limitCh.cap → g1.limitCh.len ≤ g1.limitCh.cap) ∧
    (g.invoked = 0 → g.limitCh.cap = 0 → g1.invoked = 0) := by
  cases e with
  | arrive params =>
    simp only [Gate.step, Option.some.injEq] at h
    subst h
    have hh : List.countP Caller.holding [Caller.mk params (PC.send : PC V I E P)] = 0 := rfl
    have hi : List.countP Caller.invoked [Caller.mk params (PC.send : PC V I E P)] = 0 := rfl
    simp only [Gate.held, Gate.invoked, List.countP_append, hh, hi] at hinv ⊢
    refine ⟨trivial, ?_, ?_, ?_⟩
    · omega
    · exact fun h => h
    · intro h0 _; omega
  | enter i =>
    simp only [Gate.step] at h
    split at h
    · rename_i params ch hc hs
      cases h
      obtain ⟨hlt, hcap, hlen⟩ := Chan_send_some _ _ hs
      have := countP_set_of_getElem_some Caller.holding g.callers i _
        (Caller.mk params (PC.call params)) hc
      simp only [Caller.holding] at this
      simp only [Gate.held] at hinv ⊢
      refine ⟨hcap, ?_, ?_, ?_⟩
      · simp at this; omega
      · intro _; omega
      · intro _ h0; omega
    · cases h
  | finish i out =>
    simp only [Gate.step] at h
    split at h
    · rename_i params q hc ho
      cases h
      have := countP_set_of_getElem_some Caller.holding g.callers i _
        (Caller.mk params (PC.recv out)) hc
      have hi := countP_set_of_getElem_some Caller.invoked g.callers i _
        (Caller.mk params (PC.recv out)) hc
      simp only [Caller.holding, Caller.invoked] at this hi
      simp only [Gate.held, Gate.invoked] at hinv ⊢
      refine ⟨trivial, ?_, ?_, ?_⟩
      · simp at this; omega
      · intro h; exact h
      · intro h0 _; simp at hi; omega
    · cases h
  | release i =>
    simp only [Gate.step] at h
    split at h
    · rename_i params out ch hc hr
      cases h
      obtain ⟨hpos, hcap, hlen⟩ := Chan_recv_some _ _ hr
      have := countP_set_of_getElem_some Caller.holding g.callers i _
        (Caller.mk params (PC.done out)) hc
      have hi := countP_set_of_getElem_some Caller.invoked g.callers i _
        (Caller.mk params (PC.done out)) hc
      simp only [Caller.holding, Caller.invoked] at this hi
      simp only [Gate.held, Gate.invoked] at hinv ⊢
      refine ⟨hcap, ?_, ?_, ?_⟩
      · simp at this; omega
      · intro _; omega
      · intro h0 _; simp at hi; omega
    · cases h
  | handoff i j =>
    simp only [Gate.step] at h
    split at h
    · rename_i params paramsj out hci hcj hz
      exfalso
      have := countP_set_of_getElem_some Caller.holding g.callers j _
        (Caller.mk paramsj (PC.done out)) hcj
      simp only [Caller.holding] at this
      simp only [Gate.held] at hinv
      simp at this
      omega
    · cases h

/-- The counters of a gate after a run. -/
theorem Gate_run_counts (es : List (Event V I E P)) (g g1 : Gate V I E P)
    (h : Gate.run g es = some g1) (hinv : g.limitCh.len = g.held) :
    g1.limitCh.cap = g.limitCh.cap ∧ g1.limitCh.len = g1.held ∧
    (g.limitCh.len ≤ g.limitCh.cap → g1.limitCh.len ≤ g1.limitCh.cap) ∧
    (g.invoked = 0 → g.limitCh.cap = 0 → g1.invoked = 0) := by
  induction es generalizing g with
  | nil =>
    simp only [Gate.run, Option.some.injEq] at h
    subst h
    exact ⟨rfl, hinv, fun h => h, fun h _ => h⟩
  | cons e es ih =>
    simp only [Gate.run] at h
    split at h
    · cases h
    · rename_i g2 hstep
      obtain ⟨hcap, hinv2, hle, hzero⟩ := Gate_step_counts g g2 e hstep hinv
      obtain ⟨hcap1, hinv1, hle1, hzero1⟩ := ih g2 h hinv2
      refine ⟨hcap1.trans hcap, hinv1, fun hl => hle1 (hle hl), ?_⟩
      intro h0 hc
      exact hzero1 (hzero h0 hc) (hcap.trans hc)

/-- One step keeps: a caller inside the wrapped `Get` has handed over the map it
was called with. -/
theorem Gate_step_call_params (g g1 : Gate V I E P) (e : Event V I E P)
    (h : Gate.step g e = some g1)
    (hinv : ∀ c ∈ g.callers, ∀ q, c.pc = PC.call q → q = c.params) :
    ∀ c ∈ g1.callers, ∀ q, c.pc = PC.call q → q = c.params := by
  cases e with
  | arrive params =>
    simp only [Gate.step, Option.some.injEq] at h
    subst h
    intro c hc q hq
    rcases List.mem_append.mp hc with hc | hc
    · exact hinv c hc q hq
    · simp only [List.mem_singleton] at hc
      subst hc
      cases hq
  | enter i =>
    simp only [Gate.step] at h
    split at h
    · cases h
      intro c hc q hq
      rcases List.mem_or_eq_of_mem_set hc with hc | hc
      · exact hinv c hc q hq
      · subst hc
        cases hq
        rfl
    · cases h
  | finish i out =>
    simp only [Gate.step] at h
    split at h
    · cases h
      intro c hc q hq
      rcases List.mem_or_eq_of_mem_set hc with hc | hc
      · exact hinv c hc q hq
      · subst hc
        cases hq
    · cases h
  | release i =>
    simp only [Gate.step] at h
    split at h
    · cases h
      intro c hc q hq
      rcases List.mem_or_eq_of_mem_set hc with hc | hc
      · exact hinv c hc q hq
      · subst hc
        cases hq
    · cases h
  | handoff i j =>
    simp only [Gate.step] at h
    split at h
    · cases h
      intro c hc q hq
      rcases List.mem_or_eq_of_mem_set hc with hc | hc
      · rcases List.mem_or_eq_of_mem_set hc with hc | hc
        · exact hinv c hc q hq
        · subst hc
          cases hq
          rfl
      · subst hc
        cases hq
    · cases h
/-- In every state reached from a gate without callers, a caller inside the
wrapped `Get` has handed over the map it was called with. -/
theorem Gate_run_call_params (es : List (Event V I E P)) (g g1 : Gate V I E P)
    (h : Gate.run g es = some g1)
    (hinv : ∀ c ∈ g.callers, ∀ q, c.pc = PC.call q → q = c.params) :
    ∀ c ∈ g1.callers, ∀ q, c.pc = PC.call q → q = c.params := by
  induction es generalizing g with
  | nil =>
    simp only [Gate.run, Option.some.injEq] at h
    subst h
    exact hinv
  | cons e es ih =>
    simp only [Gate.run] at h
    split at h
    · cases h
    · rename_i g2 hstep
      exact ih g2 h (Gate_step_call_params g g2 e hstep hinv)

theorem Gate_inProgress_le_held (g : Gate V I E P) : g.inProgress ≤ g.held := by
  unfold Gate.inProgress Gate.held
  generalize g.callers = l
  induction l with
  | nil => simp
  | cons c l ih =>
    simp only [List.countP_cons]
    have : (if Caller.inCall c = true then 1 else 0) ≤ (if Caller.holding c = true then 1 else 0) := by
      rcases c with ⟨params, pc⟩
      cases pc <;> simp [Caller.inCall, Caller.holding]
    omega

theorem Gate_invoked_eq (g : Gate V I E P) : g.invoked = g.held + g.released := by
  unfold Gate.invoked Gate.held Gate.released
  generalize g.callers = l
  induction l with
  | nil => simp
  | cons c l ih =>
    simp only [List.countP_cons]
    have : (if Caller.invoked c = true then 1 else 0)
        = (if Caller.holding c = true then 1 else 0)
          + (if Caller.released c = true then 1 else 0) := by
      rcases c with ⟨params, pc⟩
      cases pc <;> simp [Caller.invoked, Caller.holding, Caller.released]
    omega

theorem Chan_make_some (limit : Int) (ch : Chan) (h : Chan.make limit = some ch) :
    0 ≤ limit ∧ ch = { cap := limit.toNat, len := 0 } := by
  unfold Chan.make at h
  split at h
  · cases h
  · cases h
    exact ⟨by omega, rfl⟩

theorem NewLimitServer_some {σ : Type} (s : Server σ V I E P) (limit : Int)
    (ls : limitServer σ V I E P) (h : NewLimitServer s limit = some ls) :
    0 ≤ limit ∧ ls = { Server := s, limitCh := { cap := limit.toNat, len := 0 } } := by
  unfold NewLimitServer at h
  split at h
  · cases h
  · rename_i ch hch
    cases h
    obtain ⟨h0, hc⟩ := Chan_make_some limit ch hch
    exact ⟨h0, by rw [hc]⟩

theorem NewLimitServer_of_nonneg {σ : Type} (s : Server σ V I E P) (limit : Int) (h : 0 ≤ limit) :
    NewLimitServer s limit = some { Server := s, limitCh := { cap := limit.toNat, len := 0 } } := by
  have : ¬ limit < 0 := by omega
  simp [NewLimitServer, Chan.make, this]

/-- C3: on a server built by `NewLimitServer(s, limit)`, in every state that the
callers of `Get` can reach from the gate as made (any number of callers, any
interleaving), the calls of the wrapped `Get` in progress are at most the
callers past admission and not yet released, which are as many as the tokens
in the channel and at most `limit`; a caller enters only while fewer than
`limit` are held, so once `limit` callers have been admitted the next one
enters only after a release; the direct handoff is never enabled. -/
theorem limitServer_at_most_limit_in_progress {σ : Type} (s : Server σ V I E P) (limit : Int)
    (ls : limitServer σ V I E P) (hnew : NewLimitServer s limit = some ls)
    (es : List (Event V I E P)) (g : Gate V I E P)
    (hrun : Gate.run (Gate.init ls.limitCh) es = some g) :
    g.inProgress ≤ g.held ∧ g.held = g.limitCh.len ∧ (g.held : Int) ≤ limit ∧
    (g.inProgress : Int) ≤ limit ∧
    (∀ i g1, Gate.step g (Event.enter i) = some g1 →
      (g.held : Int) < limit ∧ (limit ≤ (g.invoked : Int) → 0 < g.released)) ∧
    (∀ i j, Gate.step g (Event.handoff i j) = none) := by
  obtain ⟨h0, hls⟩ := NewLimitServer_some s limit ls hnew
  subst hls
  have hinit : (Gate.init (V := V) (I := I) (E := E) (P := P)
      { cap := limit.toNat, len := 0 }).limitCh.len
      = (Gate.init (V := V) (I := I) (E := E) (P := P) { cap := limit.toNat, len := 0 }).held := rfl
  obtain ⟨hcap, hinv, hle, _⟩ := Gate_run_counts es _ g hrun hinit
  have hle1 := hle (Nat.zero_le _)
  have hcap1 : g.limitCh.cap = limit.toNat := hcap
  have hip := Gate_inProgress_le_held g
  refine ⟨hip, hinv.symm, by omega, by omega, ?_, ?_⟩
  · intro i g1 hstep
    simp only [Gate.step] at hstep
    split at hstep
    · rename_i params ch hc hs
      obtain ⟨hlt, _, _⟩ := Chan_send_some _ _ hs
      have := Gate_invoked_eq g
      exact ⟨by omega, by intro _; omega⟩
    · cases hstep
  · intro i j
    cases hstep : Gate.step g (Event.handoff i j) with
    | none => rfl
    | some g1 =>
      exfalso
      simp only [Gate.step] at hstep
      split at hstep
      · rename_i params paramsj out hci hcj hz
        have := countP_set_of_getElem_some Caller.holding g.callers j _
          (Caller.mk paramsj (PC.done out)) hcj
        simp only [Caller.holding] at this
        simp only [Gate.held] at hinv
        simp at this
        omega
      · cases hstep

/-- C3 at a concrete input: limit 2, three callers, the first two have entered:
two calls in progress, and the third caller cannot enter. -/
theorem limitServer_at_most_limit_in_progress_witness :
    NewLimitServer exampleCounter 2
      = some { Server := exampleCounter, limitCh := { cap := 2, len := 0 } } ∧
    Gate.run (Gate.init { cap := 2, len := 0 }) exampleEvents = some exampleGate ∧
    exampleGate.inProgress = 2 ∧ (exampleGate.inProgress : Int) ≤ 2 ∧
    Gate.step exampleGate (Event.handoff 2 0) = none :=
  ⟨rfl, rfl, rfl,
   (limitServer_at_most_limit_in_progress exampleCounter 2 _ rfl exampleEvents exampleGate
     rfl).2.2.2.1,
   (limitServer_at_most_limit_in_progress exampleCounter 2 _ rfl exampleEvents exampleGate
     rfl).2.2.2.2.2 2 0⟩

theorem countP_eq_zero_forall {α : Type} (f : α → Bool) (l : List α) (h : l.countP f = 0) :
    ∀ c ∈ l, f c = false := by
  induction l with
  | nil => simp
  | cons x l ih =>
    simp only [List.countP_cons] at h
    intro c hc
    rcases List.mem_cons.mp hc with rfl | hc
    · cases hf : f c
      · rfl
      · simp [hf] at h
    · exact ih (by omega) c hc

end GateInvariant

/-! ## Theorems: one call of `limitServer.Get` -/

section LimitServer

variable {σ V I E P : Type}

/-- A call that finds a free slot: the wrapped server is called with the same
map; when that call ends, its outcome is the outcome and the channel is as
before; when it never returns, the token stays in the channel. -/
theorem limitServer_Get_of_free_slot (s : Server σ V I E P) (c k : Nat) (hk : k < c)
    (p : Params V) (st : σ) :
    limitServer.Get { Server := s, limitCh := { cap := c, len := k } } p st =
      if (s.Get p st).1.ended then
        ((s.Get p st).1, ({ Server := s, limitCh := { cap := c, len := k } }, (s.Get p st).2))
      else
        (Outcome.hang, ({ Server := s, limitCh := { cap := c, len := k + 1 } }, (s.Get p st).2)) := by
  rcases hr : s.Get p st with ⟨out, st1⟩
  cases out <;> simp [limitServer.Get, Chan.send, Chan.recv, hr, hk, Outcome.ended]

/-- A call that finds the channel full (or unbuffered) waits for ever at the
send: nothing changes and the wrapped server is not called. -/
theorem limitServer_Get_of_full (s : Server σ V I E P) (c k : Nat) (hk : c ≤ k)
    (p : Params V) (st : σ) :
    limitServer.Get { Server := s, limitCh := { cap := c, len := k } } p st =
      (Outcome.hang, ({ Server := s, limitCh := { cap := c, len := k } }, st)) := by
  have : ¬ k < c := by omega
  simp [limitServer.Get, Chan.send, this]

/-- The two views of `limitServer.Get` agree: a call run alone that finds a free
slot and whose wrapped call ends is the run arrive, enter, finish, release of
one caller at the gate, with the same channel and the same outcome at the end. -/
theorem limitServer_Get_as_gate_run (s : Server σ V I E P) (c k : Nat) (hk : k < c)
    (p : Params V) (st : σ) (callers : List (Caller V I E P))
    (hend : (s.Get p st).1.ended = true) :
    Gate.run { limitCh := { cap := c, len := k }, callers := callers }
      [Event.arrive p, Event.enter callers.length,
        Event.finish callers.length (s.Get p st).1, Event.release callers.length]
      = some { limitCh :=
                (limitServer.Get { Server := s, limitCh := { cap := c, len := k } } p st).2.1.limitCh,
               callers := callers ++ [Caller.mk p (PC.done
                (limitServer.Get { Server := s, limitCh := { cap := c, len := k } } p st).1)] } := by
  rw [limitServer_Get_of_free_slot s c k hk p st, if_pos hend]
  simp [Gate.run, Gate.step, Chan.send, Chan.recv, hk, hend]

theorem limitServer_GetAll_of_ended (s : Server σ V I E P) (c : Nat) (hc : 0 < c)
    (hs : ∀ p st, (s.Get p st).1.ended = true) (ps : List (Params V)) (st : σ) :
    (limitServer.GetAll { Server := s, limitCh := { cap := c, len := 0 } } st ps).length
      = ps.length ∧
    ∀ x ∈ limitServer.GetAll { Server := s, limitCh := { cap := c, len := 0 } } st ps,
      x.2 = 0 ∧ ∃ q st1, x.1 = (s.Get q st1).1 := by
  induction ps generalizing st with
  | nil => simp [limitServer.GetAll]
  | cons a rest ih =>
    have hget := limitServer_Get_of_free_slot s c 0 hc a st
    rw [if_pos (hs a st)] at hget
    have hend := hs a st
    rcases hr : s.Get a st with ⟨out, st1⟩
    rw [hr] at hget hend
    obtain ⟨hlen, hall⟩ := ih st1
    cases out with
    | hang => simp [Outcome.ended] at hend
    | ret image err =>
      simp only [limitServer.GetAll, hget, List.length_cons, hlen, List.mem_cons]
      refine ⟨trivial, ?_⟩
      rintro x (rfl | hx)
      · exact ⟨rfl, a, st, by rw [hr]⟩
      · exact hall x hx
    | panic v =>
      simp only [limitServer.GetAll, hget, List.length_cons, hlen, List.mem_cons]
      refine ⟨trivial, ?_⟩
      rintro x (rfl | hx)
      · exact ⟨rfl, a, st, by rw [hr]⟩
      · exact hall x hx

/-- C4: a call of `Get` on a server built by `NewLimitServer(s, limit)`,
`limit >= 1`, gives its slot back: whatever map it gets and however the wrapped
call ends (a return with image or error, or a panic), the channel holds after
the call the tokens it held before; so when the wrapped `Get` always returns
an error, calls issued one after another, however many, all run to their end
(none waits at the send) and leave the channel empty, each of them. -/
theorem limitServer_Get_gives_slot_back (s : Server σ V I E P) (limit : Int) (hl : 1 ≤ limit) :
    NewLimitServer s limit = some { Server := s, limitCh := { cap := limit.toNat, len := 0 } } ∧
    (∀ (k : Nat) (p : Params V) (st : σ), (k : Int) < limit → (s.Get p st).1 ≠ Outcome.hang →
      (limitServer.Get { Server := s, limitCh := { cap := limit.toNat, len := k } } p st).2.1.limitCh
        = { cap := limit.toNat, len := k }) ∧
    ((∀ p st, ∃ image e, (s.Get p st).1 = Outcome.ret image (some e)) →
      ∀ (ps : List (Params V)) (st : σ),
        (limitServer.GetAll { Server := s, limitCh := { cap := limit.toNat, len := 0 } } st
          ps).length = ps.length ∧
        ∀ x ∈ limitServer.GetAll { Server := s, limitCh := { cap := limit.toNat, len := 0 } } st ps,
          x.2 = 0 ∧ ∃ image e, x.1 = Outcome.ret image (some e)) := by
  refine ⟨NewLimitServer_of_nonneg s limit (by omega), ?_, ?_⟩
  · intro k p st hk hne
    have hend : (s.Get p st).1.ended = true := by
      cases h : (s.Get p st).1 <;> simp_all [Outcome.ended]
    rw [limitServer_Get_of_free_slot s limit.toNat k (by omega) p st, if_pos hend]
  · intro herr ps st
    have hs : ∀ p st, (s.Get p st).1.ended = true := by
      intro p st
      obtain ⟨image, e, h⟩ := herr p st
      rw [h]
      rfl
    obtain ⟨hlen, hall⟩ := limitServer_GetAll_of_ended s limit.toNat (by omega) hs ps st
    refine ⟨hlen, fun x hx => ?_⟩
    obtain ⟨h0, q, st1, hq⟩ := hall x hx
    exact ⟨h0, by rw [hq]; exact herr q st1⟩

/-- C4 at concrete inputs: limit 2; a panicking wrapped call made while one
token is held leaves one token; three calls in a row of a server that always
fails all end and leave the channel empty. -/
theorem limitServer_Get_gives_slot_back_witness :
    (1 : Int) ≤ 2 ∧
    (limitServer.Get { Server := examplePanicking, limitCh := { cap := 2, len := 1 } }
      exampleParams 0).2.1.limitCh = { cap := 2, len := 1 } ∧
    (limitServer.GetAll { Server := exampleFailing, limitCh := { cap := 2, len := 0 } } 0
      [exampleParams, exampleParamsNoSource, exampleParams]).length = 3 ∧
    limitServer.GetAll { Server := exampleFailing, limitCh := { cap := 2, len := 0 } } 0
      [exampleParams, exampleParamsNoSource, exampleParams]
      = [(Outcome.ret none (some (Error.other "unavailable")), 0),
         (Outcome.ret none (some (Error.other "unavailable")), 0),
         (Outcome.ret none (some (Error.other "unavailable")), 0)] :=
  ⟨by decide,
   (limitServer_Get_gives_slot_back examplePanicking 2 (by decide)).2.1 1 exampleParams 0
     (by decide) (by decide),
   ((limitServer_Get_gives_slot_back exampleFailing 2 (by decide)).2.2
     (fun _ _ => ⟨none, Error.other "unavailable", rfl⟩)
     [exampleParams, exampleParamsNoSource, exampleParams] 0).1,
   rfl⟩

/-- C5: on a server built by `NewLimitServer(s, limit)`, `limit >= 1`, a call
`Get(p)` that finds a free slot (`k < limit` tokens held by others) has exactly
the outcome of `s.Get(p)` and leaves the wrapped server in the state that one
call `s.Get(p)` leaves; a wrapped server that records invocation has recorded
`p` itself, once. -/
theorem limitServer_Get_is_wrapped_Get (s : Server σ V I E P) (limit : Int) (hl : 1 ≤ limit)
    (k : Nat) (hk : (k : Int) < limit) (p : Params V) (st : σ) (log : List (Params V)) :
    NewLimitServer s limit = some { Server := s, limitCh := { cap := limit.toNat, len := 0 } } ∧
    (limitServer.Get { Server := s, limitCh := { cap := limit.toNat, len := k } } p st).1
      = (s.Get p st).1 ∧
    (limitServer.Get { Server := s, limitCh := { cap := limit.toNat, len := k } } p st).2.2
      = (s.Get p st).2 ∧
    (limitServer.Get { Server := recording s, limitCh := { cap := limit.toNat, len := k } } p
      (log, st)).1 = (s.Get p st).1 ∧
    (limitServer.Get { Server := recording s, limitCh := { cap := limit.toNat, len := k } } p
      (log, st)).2.2 = (log ++ [p], (s.Get p st).2) := by
  have key : ∀ {τ : Type} (u : Server τ V I E P) (t : τ),
      (limitServer.Get { Server := u, limitCh := { cap := limit.toNat, len := k } } p t).1
        = (u.Get p t).1 ∧
      (limitServer.Get { Server := u, limitCh := { cap := limit.toNat, len := k } } p t).2.2
        = (u.Get p t).2 := by
    intro τ u t
    rw [limitServer_Get_of_free_slot u limit.toNat k (by omega) p t]
    cases h : (u.Get p t).1 <;> simp [Outcome.ended]
  exact ⟨NewLimitServer_of_nonneg s limit (by omega), (key s st).1, (key s st).2,
    (key (recording s) (log, st)).1, (key (recording s) (log, st)).2⟩

/-- C5 at a concrete input: limit 2, one token held by another caller, a wrapped
server that fails. -/
theorem limitServer_Get_is_wrapped_Get_witness :
    (1 : Int) ≤ 2 ∧ ((1 : Nat) : Int) < 2 ∧
    (limitServer.Get { Server := recording exampleFailing, limitCh := { cap := 2, len := 1 } }
      exampleParams ([], 7)).1 = Outcome.ret none (some (Error.other "unavailable")) ∧
    (limitServer.Get { Server := recording exampleFailing, limitCh := { cap := 2, len := 1 } }
      exampleParams ([], 7)).2.2 = ([exampleParams], 8) :=
  ⟨by decide, by decide,
   (limitServer_Get_is_wrapped_Get exampleFailing 2 (by decide) 1 (by decide) exampleParams 7
     []).2.2.2.1,
   (limitServer_Get_is_wrapped_Get exampleFailing 2 (by decide) 1 (by decide) exampleParams 7
     []).2.2.2.2⟩

/-- C10: `NewLimitServer(s, 0)` returns a server, with a channel of no slot; on
it no caller ever gets past the send: in every state the callers can reach,
the wrapped `Get` has been invoked for no caller and every caller stands at
the send; a call run alone never returns and leaves everything as it was. -/
theorem NewLimitServer_zero_lets_nobody_in (s : Server σ V I E P) :
    ∃ ls : limitServer σ V I E P, NewLimitServer s 0 = some ls ∧
      ls.limitCh = { cap := 0, len := 0 } ∧
      (∀ (es : List (Event V I E P)) (g : Gate V I E P),
        Gate.run (Gate.init ls.limitCh) es = some g →
          g.invoked = 0 ∧ g.inProgress = 0 ∧ ∀ c ∈ g.callers, c.invoked = false) ∧
      (∀ (p : Params V) (st : σ), limitServer.Get ls p st = (Outcome.hang, (ls, st))) := by
  refine ⟨{ Server := s, limitCh := { cap := 0, len := 0 } }, rfl, rfl, ?_, ?_⟩
  · intro es g hrun
    have hinit : (Gate.init (V := V) (I := I) (E := E) (P := P) { cap := 0, len := 0 }).limitCh.len
        = (Gate.init (V := V) (I := I) (E := E) (P := P) { cap := 0, len := 0 }).held := rfl
    obtain ⟨_, hinv, hle, hz⟩ := Gate_run_counts es _ g hrun hinit
    have h0 : g.invoked = 0 := hz rfl rfl
    have h1 := Gate_invoked_eq g
    have h2 := Gate_inProgress_le_held g
    exact ⟨h0, by omega, countP_eq_zero_forall Caller.invoked g.callers h0⟩
  · intro p st
    exact limitServer_Get_of_full s 0 0 (Nat.le_refl 0) p st

/-- C10 at a concrete input: two callers arrive at the gate of limit 0; neither
has entered, and a call run alone on a recording server records nothing. -/
theorem NewLimitServer_zero_lets_nobody_in_witness :
    ∃ ls, NewLimitServer (recording exampleCounter) 0 = some ls ∧
      (∀ g, Gate.run (Gate.init ls.limitCh) exampleEventsZero = some g → g.invoked = 0) ∧
      limitServer.Get ls exampleParams ([], 7) = (Outcome.hang, (ls, ([], 7))) :=
  (NewLimitServer_zero_lets_nobody_in (recording exampleCounter)).imp fun _ h =>
    ⟨h.1, fun g hg => (h.2.2.1 exampleEventsZero g hg).1, h.2.2.2 exampleParams ([], 7)⟩

end LimitServer

end imageserver
